import Mathlib

/-!
Verification of the price-synchronization core of the HomeOffice site
repository.  The JavaScript updater scripts (update-prices.mjs in its Keepa,
Creators-API and PA-API variants) share the same template patcher
updateFilePrice; this file gives a shallow embedding of that patcher, of the
Keepa price selection, of the orchestrator deduplication and of the SigV4
signing pipeline, and proves the specified properties about them.

Strings of the JavaScript source are modelled as lists of characters; file
content is the list of characters of the file; numbers are modelled as
rationals (the scripts only compare, divide and round prices).
-/

namespace PriceSync

/-- A line of a template file, as the sequence of its characters. -/
abbrev Line := List Char

/-- Whitespace test mirroring the regex character class backslash-s of
JavaScript (ASCII whitespace plus the Unicode space characters). -/
def isWS (c : Char) : Bool :=
  c.toNat = 9 || c.toNat = 10 || c.toNat = 11 || c.toNat = 12 || c.toNat = 13 ||
  c.toNat = 32 || c.toNat = 160 || c.toNat = 5760 ||
  (8192 ≤ c.toNat && c.toNat ≤ 8202) || c.toNat = 8232 || c.toNat = 8233 ||
  c.toNat = 8239 || c.toNat = 8287 || c.toNat = 12288 || c.toNat = 65279

/-- Quote characters accepted by the price regex of the source: the
apostrophe (39), the double quote (34) and the backtick (96). -/
def isQuote (c : Char) : Bool := c.toNat = 39 || c.toNat = 34 || c.toNat = 96

/-- Model of the JavaScript string split on the newline character: splitting
the empty content gives one empty line, every newline starts a fresh line. -/
def splitLinesCh : List Char → List Line
  | [] => [[]]
  | c :: cs =>
    match splitLinesCh cs with
    | [] => [[c]]
    | l :: ls => if c = '\n' then [] :: l :: ls else (c :: l) :: ls

/-- Model of the JavaScript array join with the newline character. -/
def joinLinesCh : List Line → List Char
  | [] => []
  | [l] => l
  | l :: l2 :: ls => l ++ '\n' :: joinLinesCh (l2 :: ls)

/-- Model of the JavaScript string includes: pat occurs as a contiguous
substring of l. -/
def containsSub (l pat : Line) : Bool := l.tails.any fun t => pat.isPrefixOf t

/-- Does the list start with the word asin, optional whitespace and a colon. -/
def asinColonAt : Line → Bool
  | 'a' :: 's' :: 'i' :: 'n' :: r =>
    match r.dropWhile isWS with
    | c :: _ => c = ':'
    | [] => false
  | _ => false

/-- Model of the unanchored regex test for an identifier-declaration line:
the word asin followed by optional whitespace and a colon, anywhere. -/
def isAsinLine (l : Line) : Bool := l.tails.any asinColonAt

/-- The characters of the word price. -/
def priceWord : Line := ['p', 'r', 'i', 'c', 'e']

/-- Model of the anchored price regex of the source.  On success it returns
the three capture groups: group one is the leading whitespace, the word
price, whitespace, the colon, whitespace and the opening quote; group two is
the nonempty run of non-quote characters; group three is the closing quote
together with the rest of the line. -/
def matchPriceLine (l : Line) : Option (Line × Line × Line) :=
  let ws1 := l.takeWhile isWS
  let r1 := l.dropWhile isWS
  if priceWord.isPrefixOf r1 then
    let r2 := r1.drop 5
    let ws2 := r2.takeWhile isWS
    match r2.dropWhile isWS with
    | ':' :: r4 =>
      let ws3 := r4.takeWhile isWS
      match r4.dropWhile isWS with
      | q :: r6 =>
        if isQuote q then
          let mid := r6.takeWhile fun c => !isQuote c
          let rest := r6.dropWhile fun c => !isQuote c
          if mid.isEmpty || rest.isEmpty then none
          else some (ws1 ++ priceWord ++ ws2 ++ ':' :: ws3 ++ [q], mid, rest)
        else none
      | [] => none
    | _ => none
  else none

/-- Value of a list of decimal digit characters, most significant first. -/
def digitsVal (l : Line) : ℕ := l.foldl (fun a c => 10 * a + (c.toNat - 48)) 0

/-!
The arithmetic of the scripts is modelled over ℚ.  The library marks the
field operations of ℚ irreducible, so the model routes them through
Rat.divInt, which the kernel evaluates; the lemmas qAdd_eq, qSub_eq, qMul_eq
and ratDiv_eq_div below identify the routed operations with the field
operations of ℚ, so the statements can be read either way.
-/

/-- Exact division of rationals, written through Rat.divInt. -/
def ratDiv (a b : ℚ) : ℚ := Rat.divInt (a.num * b.den) (a.den * b.num)

/-- Exact addition of rationals, written through Rat.divInt. -/
def qAdd (a b : ℚ) : ℚ := Rat.divInt (a.num * b.den + b.num * a.den) (a.den * b.den)

/-- Exact subtraction of rationals, written through Rat.divInt. -/
def qSub (a b : ℚ) : ℚ := Rat.divInt (a.num * b.den - b.num * a.den) (a.den * b.den)

/-- Exact multiplication of rationals, written through Rat.divInt. -/
def qMul (a b : ℚ) : ℚ := Rat.divInt (a.num * b.num) (a.den * b.den)

/-- Model of parseFloat applied to the recorded price string after stripping
every character other than the decimal digits and the decimal point, as the
source does with a replace.  The stripped string holds only digits and dots;
parseFloat reads an optional integer part and an optional fraction part and
ignores what follows; it fails when no digit was read. -/
def parsePrice (m : Line) : Option ℚ :=
  let s := m.filter fun c => c.isDigit || c = '.'
  let ip := s.takeWhile Char.isDigit
  match s.dropWhile Char.isDigit with
  | '.' :: r2 =>
    let fp := r2.takeWhile Char.isDigit
    if ip.isEmpty && fp.isEmpty then none
    else some (qAdd (digitsVal ip : ℚ) (Rat.divInt (digitsVal fp) (10 ^ fp.length : ℕ)))
  | _ => if ip.isEmpty then none else some ((digitsVal ip : ℚ))

/-- The decimal digit character for a value below ten. -/
def digitCh : ℕ → Char
  | 0 => '0' | 1 => '1' | 2 => '2' | 3 => '3' | 4 => '4'
  | 5 => '5' | 6 => '6' | 7 => '7' | 8 => '8' | _ => '9'

/-- Fuel-driven accumulator loop producing the decimal digits of a natural
number in front of acc. -/
def natDigitsF : ℕ → ℕ → Line → Line
  | 0, _, acc => acc
  | f + 1, n, acc =>
    if n < 10 then digitCh n :: acc
    else natDigitsF f (n / 10) (digitCh (n % 10) :: acc)

/-- Decimal digits of a natural number, most significant first, as JavaScript
prints a nonnegative integer. -/
def natDigits (n : ℕ) : Line := natDigitsF (n + 1) n []

/-- Decimal writing of an integer, as JavaScript prints it. -/
def intDigits (i : ℤ) : Line :=
  if i < 0 then '-' :: natDigits (-i).toNat else natDigits i.toNat

/-- Math.round of JavaScript: rounds to the nearest integer, halves toward
positive infinity. -/
def jsRound (q : ℚ) : ℤ := (qAdd q (Rat.divInt 1 2)).floor

/-- Format the new price in the style of the source: dollar sign before the
rounded digits for the dollar currency, euro sign after them otherwise. -/
def fmtPrice (newPrice : ℚ) (currency : Line) : Line :=
  if currency = ['$'] then '$' :: intDigits (jsRound newPrice)
  else intDigits (jsRound newPrice) ++ ['€']

/-- The configured significance threshold MIN_CHANGE_PCT of the source. -/
def MIN_CHANGE_PCT : ℚ := 3

/-- Percentage change between the new price and the recorded one: the
absolute difference divided by the old price, times one hundred. -/
def changePct (newPrice old : ℚ) : ℚ := qMul (ratDiv |qSub newPrice old| old) 100

/-- Inner loop of updateFilePrice.  Starting at index j it walks forward
while j < stop; the first line matching the price regex is the decision
point: an unparsable or zero recorded price, or a change below the
threshold, abandons the occurrence (none); otherwise the index and the
rewritten line are produced.  A line that fails the price regex but matches
the asin regex aborts the walk.  The fuel argument only drives structural
recursion; callers pass at least stop - j. -/
def scanWindow (cur : List Line) (stop : ℕ) (newPrice : ℚ) (currency : Line) :
    ℕ → ℕ → Option (ℕ × Line)
  | 0, _ => none
  | fuel + 1, j =>
    if j < stop then
      match cur.get? j with
      | none => none
      | some l =>
        match matchPriceLine l with
        | some (pre, mid, suf) =>
          match parsePrice mid with
          | none => none
          | some v =>
            if v = 0 then none
            else if changePct newPrice v < MIN_CHANGE_PCT then none
            else some (j, pre ++ fmtPrice newPrice currency ++ suf)
        | none =>
          if isAsinLine l then none
          else scanWindow cur stop newPrice currency fuel (j + 1)
    else none

/-- Outer loop of updateFilePrice over the line indices, updating in place
the line chosen by the window scan of each identifier occurrence.  The fuel
argument drives structural recursion; callers pass the length of the list. -/
def updateLinesAux (asin : Line) (newPrice : ℚ) (currency : Line) :
    ℕ → List Line → ℕ → Bool → List Line × Bool
  | 0, cur, _, changed => (cur, changed)
  | fuel + 1, cur, i, changed =>
    match cur.get? i with
    | none => (cur, changed)
    | some l =>
      if isAsinLine l && containsSub l asin then
        match scanWindow cur (min (i + 10) cur.length) newPrice currency
            (min (i + 10) cur.length) (i + 1) with
        | some (j, nl) =>
          updateLinesAux asin newPrice currency fuel (cur.set j nl) (i + 1) true
        | none => updateLinesAux asin newPrice currency fuel cur (i + 1) changed
      else updateLinesAux asin newPrice currency fuel cur (i + 1) changed

/-- The patcher on the split lines of a file. -/
def updateFileLines (lines : List Line) (asin : Line) (newPrice : ℚ)
    (currency : Line) : List Line × Bool :=
  updateLinesAux asin newPrice currency lines.length lines 0 false

/-- Model of updateFilePrice.  The first component is the file content after
the call: the file is written back, joined with newlines, exactly when some
line was assigned; otherwise the content is untouched.  The second component
is the boolean return value of the function. -/
def updateFilePrice (content : Line) (asin : Line) (newPrice : ℚ)
    (currency : Line) : Line × Bool :=
  let r := updateFileLines (splitLinesCh content) asin newPrice currency
  (if r.2 then joinLinesCh r.1 else content, r.2)

/-!  Shape predicates used to state properties of the price regex. -/

/-- Shape of the first capture group of the price regex: leading whitespace,
the word price, whitespace, a colon, whitespace and an opening quote. -/
def PShapeOf (p : Line) : Prop :=
  ∃ ws1 ws2 ws3 q, (∀ c ∈ ws1, isWS c = true) ∧ (∀ c ∈ ws2, isWS c = true) ∧
    (∀ c ∈ ws3, isWS c = true) ∧ isQuote q = true ∧
    p = ws1 ++ priceWord ++ ws2 ++ ':' :: ws3 ++ [q]

/-- Shape of the second capture group: nonempty and quote-free. -/
def MidOK (m : Line) : Prop := m ≠ [] ∧ ∀ c ∈ m, isQuote c = false

/-- Shape of the third capture group: it starts with a quote character. -/
def SufOK (s : Line) : Prop := ∃ q r, s = q :: r ∧ isQuote q = true

/-- The line at index i is an occurrence of the identifier: it matches the
asin regex and contains the identifier text. -/
def Occ (asin : Line) (cur : List Line) (i : ℕ) : Prop :=
  ∃ l, cur.get? i = some l ∧ (isAsinLine l && containsSub l asin) = true

/-- At index i the patcher finds nothing to rewrite, or the line it would
write is already the current content of its target: processing index i
cannot change the list. -/
def Benign (asin : Line) (newPrice : ℚ) (currency : Line) (cur : List Line)
    (i : ℕ) : Prop :=
  Occ asin cur i →
    ∀ jj v, scanWindow cur (min (i + 10) cur.length) newPrice currency
        (min (i + 10) cur.length) (i + 1) = some (jj, v) →
      cur.get? jj = some v

/-- No line of the list contains a newline character. -/
def NLFree (cur : List Line) : Prop := ∀ l ∈ cur, '\n' ∉ l

-- ── Orchestrator of the Keepa variant: deduplication by asin and domain ──

/-- One entry of the PRODUCTS registry of the Keepa variant. -/
structure Product where
  asin : Line
  domain : ℕ
  currency : Line
  files : List Line

/-- The map key used by main: the asin text, a dash and the decimal domain. -/
def keyOf (p : Product) : Line := p.asin ++ '-' :: natDigits p.domain

/-- Does the association list already hold the key. -/
def hasKey (m : List (Line × Product)) (k : Line) : Bool :=
  m.any fun kv => kv.1 == k

/-- Merge the file list of a duplicate entry into the stored one, appending
only the files not already present, as the inner loop of main does. -/
def mergeFiles (stored p : Product) : Product :=
  { stored with
    files := p.files.foldl (fun fs f => if fs.contains f then fs else fs ++ [f]) stored.files }

/-- One step of the byKey construction of main: a fresh key is appended with
the entry itself, a known key has its file list merged in place. -/
def insertProduct (m : List (Line × Product)) (p : Product) : List (Line × Product) :=
  if hasKey m (keyOf p) then
    m.map fun kv => if kv.1 == keyOf p then (kv.1, mergeFiles kv.2 p) else kv
  else m ++ [(keyOf p, p)]

/-- The byKey map of main, as an insertion-ordered association list. -/
def buildByKey (ps : List Product) : List (Line × Product) := ps.foldl insertProduct []

/-- The sequence of (asin, domain) pairs main hands to fetchKeepaPrice, one
per entry of byKey, in iteration order. -/
def fetchedPairs (ps : List Product) : List (Line × ℕ) :=
  (buildByKey ps).map fun kv => (kv.2.asin, kv.2.domain)

-- ── Price selection of the Keepa fetcher ──

/-- The stats object of a Keepa product: its current array may be absent, and
entries of the array may be null. -/
structure KeepaStats where
  current : Option (List (Option ℤ))

/-- One product of a Keepa response. -/
structure KeepaProduct where
  stats : Option KeepaStats

/-- A parsed Keepa response: the products array may be absent. -/
structure KeepaResponse where
  products : Option (List KeepaProduct)

/-- Optional access stats.current[i]: none when the array is absent, the
index is out of range, or the entry is null. -/
def curAt (st : KeepaStats) (i : ℕ) : Option ℤ :=
  match st.current with
  | none => none
  | some arr => (arr.get? i).getD none

/-- The candidate filter of fetchKeepaPrice: present and positive. -/
def goodCand : Option ℤ → Bool
  | some x => decide (0 < x)
  | none => false

/-- Model of the response handling of fetchKeepaPrice: no products or no
stats yields no quote; otherwise the first present and positive entry among
current[10], current[0], current[1] is divided by one hundred. -/
def fetchKeepaPrice (resp : KeepaResponse) : Option ℚ :=
  match resp.products with
  | none => none
  | some [] => none
  | some (q :: _) =>
    match q.stats with
    | none => none
    | some st =>
      match [curAt st 10, curAt st 0, curAt st 1].find? goodCand with
      | some (some x) => some (Rat.divInt x 100)
      | _ => none

-- ── SigV4 signing pipeline of the PA-API variant ──

/-- The fixed request path PA_PATH of the source. -/
def PA_PATH : String := "/paapi5/getitems"

/-- The fixed target header value PA_TARGET of the source. -/
def PA_TARGET : String := "com.amazon.paapi5.v1.ProductAdvertisingAPIv1.GetItems"

/-- The fixed service name PA_SVC of the source. -/
def PA_SVC : String := "ProductAdvertisingAPI"

/-- The four-stage signing key of the source: each stage is a keyed hash of
the previous key; hmac takes the key first and the data second, as the
createHmac wrapper of the source does. -/
def signingKey (hmac : String → String → String)
    (secret date region service : String) : String :=
  hmac (hmac (hmac (hmac ("AWS4" ++ secret) date) region) service) "aws4_request"

/-- The canonical headers block built in fetchPAAIPrices. -/
def canonHeadersOf (host amzDate : String) : String :=
  "content-encoding:amz-1.0\n" ++ "content-type:application/json; charset=utf-8\n" ++
  "host:" ++ host ++ "\n" ++ "x-amz-date:" ++ amzDate ++ "\n" ++
  "x-amz-target:" ++ PA_TARGET ++ "\n"

/-- The signed-header list of fetchPAAIPrices. -/
def signedHeadersStr : String := "content-encoding;content-type;host;x-amz-date;x-amz-target"

/-- The canonical request of fetchPAAIPrices: method, path, empty query,
canonical headers, signed-header list and payload hash. -/
def canonRequestOf (host amzDate payloadHash : String) : String :=
  "POST\n" ++ PA_PATH ++ "\n\n" ++ canonHeadersOf host amzDate ++ "\n" ++
  signedHeadersStr ++ "\n" ++ payloadHash

/-- The credential scope of fetchPAAIPrices: date stamp, region, service and
the terminal token. -/
def credScopeOf (dateStamp region : String) : String :=
  dateStamp ++ "/" ++ region ++ "/" ++ PA_SVC ++ "/aws4_request"

/-- The string to sign of fetchPAAIPrices: algorithm tag, timestamp,
credential scope and the hex hash of the canonical request; the payload hash
inside the canonical request is the hex hash of the body.  sha models the
hex digest of SHA-256; the date stamp is the first eight characters of the
timestamp, as the slice in the source takes it. -/
def strToSignOf (sha : String → String) (host region body amzDate : String) : String :=
  "AWS4-HMAC-SHA256\n" ++ amzDate ++ "\n" ++ credScopeOf (amzDate.take 8) region ++ "\n" ++
  sha (canonRequestOf host amzDate (sha body))

/-- The request signature of fetchPAAIPrices: the hex keyed hash, under the
derived signing key, of the string to sign.  hmacRaw models the keyed digest
returning raw bytes (used for the key stages), hmacHex the keyed digest
returning hex (used for the final signature), sha the hex SHA-256 digest. -/
def requestSignature (hmacRaw hmacHex : String → String → String)
    (sha : String → String) (secret region host body amzDate : String) : String :=
  hmacHex (signingKey hmacRaw secret (amzDate.take 8) region PA_SVC)
    (strToSignOf sha host region body amzDate)

-- ── Concrete template files used by the claim instances ──

/-- The euro currency tag. -/
def euroCur : Line := ['€']

/-- A file with one product block recording the price 100 euro. -/
def fileA : Line := "asin: \"XXXXXXXXXX\",\n  price: \"100€\",".toList

/-- The file fileA after the price was rewritten to 104 euro. -/
def fileA104 : Line := "asin: \"XXXXXXXXXX\",\n  price: \"104€\",".toList

/-- The identifier of the block in fileA. -/
def asinX : Line := "XXXXXXXXXX".toList

/-- A file whose price-declaration line sits ten lines after the
identifier-declaration line. -/
def fileB10 : Line :=
  "asin: \"BBBBBBBBBB\",\nf1,\nf2,\nf3,\nf4,\nf5,\nf6,\nf7,\nf8,\nf9,\n  price: \"100€\",".toList

/-- A file whose price-declaration line sits nine lines after the
identifier-declaration line. -/
def fileB9 : Line :=
  "asin: \"BBBBBBBBBB\",\nf1,\nf2,\nf3,\nf4,\nf5,\nf6,\nf7,\nf8,\n  price: \"100€\",".toList

/-- The file fileB9 after the price was rewritten to 200 euro. -/
def fileB9out : Line :=
  "asin: \"BBBBBBBBBB\",\nf1,\nf2,\nf3,\nf4,\nf5,\nf6,\nf7,\nf8,\n  price: \"200€\",".toList

/-- The identifier of the block in fileB10 and fileB9. -/
def asinB : Line := "BBBBBBBBBB".toList

/-- A file recording the price 10 euro. -/
def fileZ : Line := "asin: \"ZZZZZZZZZZ\",\n  price: \"10€\",".toList

/-- The identifier of the block in fileZ. -/
def asinZ : Line := "ZZZZZZZZZZ".toList

/-- A file recording the price 49 euro in double quotes, with a footer. -/
def fileY : Line := "asin: \"YYYYYYYYYY\",\n  price: \"49€\",\nfooter".toList

/-- The file fileY after the price was rewritten to 52 euro. -/
def fileY52 : Line := "asin: \"YYYYYYYYYY\",\n  price: \"52€\",\nfooter".toList

/-- The identifier of the block in fileY. -/
def asinY : Line := "YYYYYYYYYY".toList

/-- A file whose first product block has no price field: the window of the
first identifier is interrupted by the identifier-declaration line of the
next block, which does own a price field. -/
def fileI : Line :=
  "asin: \"AAAAAAAAAA\",\nname,\nasin: \"CCCCCCCCCC\",\n  price: \"100€\",".toList

/-- The identifier of the first (priceless) block in fileI. -/
def asinA : Line := "AAAAAAAAAA".toList

/-- A file whose recorded price parses to zero. -/
def fileN : Line := "asin: \"DDDDDDDDDD\",\n  price: \"0€\",".toList

/-- The identifier of the block in fileN. -/
def asinD : Line := "DDDDDDDDDD".toList

/-- A Keepa stats object with a positive buy-box entry at index ten. -/
def demoStats : KeepaStats :=
  ⟨some [some 999, some 7, none, none, none, none, none, none, none, none, some 4600]⟩

/-- A Keepa response holding one product with demoStats. -/
def demoResp : KeepaResponse := ⟨some [⟨some demoStats⟩]⟩

-- ── Arithmetic bridging lemmas ──

theorem num_mul_eq (a : ℚ) : (a.num : ℚ) = a * a.den :=
  (div_eq_iff (Nat.cast_ne_zero.mpr a.den_ne_zero)).1 (Rat.num_div_den a)

theorem qAdd_eq (a b : ℚ) : qAdd a b = a + b := by
  unfold qAdd
  rw [Rat.divInt_eq_div]
  push_cast
  field_simp
  rw [num_mul_eq a, num_mul_eq b]
  ring

theorem qSub_eq (a b : ℚ) : qSub a b = a - b := by
  unfold qSub
  rw [Rat.divInt_eq_div]
  push_cast
  field_simp
  rw [num_mul_eq a, num_mul_eq b]
  ring

theorem qMul_eq (a b : ℚ) : qMul a b = a * b := by
  unfold qMul
  rw [Rat.divInt_eq_div]
  push_cast
  field_simp
  rw [num_mul_eq a, num_mul_eq b]
  ring

theorem ratDiv_eq_div (a b : ℚ) : ratDiv a b = a / b := by
  unfold ratDiv
  rcases eq_or_ne b 0 with rfl | hb
  · simp [Rat.divInt_eq_div]
  · rw [Rat.divInt_eq_div]
    push_cast
    have hbne : (b.num : ℚ) ≠ 0 := by
      simpa using Rat.num_ne_zero.2 hb
    field_simp
    rw [num_mul_eq a, num_mul_eq b]
    ring

/-- The modelled change percentage is the specified quotient formula. -/
theorem changePct_eq (newPrice old : ℚ) :
    changePct newPrice old = |newPrice - old| / old * 100 := by
  unfold changePct
  rw [qMul_eq, ratDiv_eq_div, qSub_eq]

-- ── List helpers ──

theorem get_set_self {α : Type} (l : List α) (j : ℕ) (a : α)
    (h : l.get? j = some a) : l.set j a = l := by
  induction l generalizing j with
  | nil => simp at h
  | cons x xs ih =>
    cases j with
    | zero => simp at h; simp [List.set, h]
    | succ j =>
      simp only [List.get?] at h
      simp [List.set, ih j h]

theorem get_set_same {α : Type} (l : List α) (j : ℕ) (v : α)
    (h : j < l.length) : (l.set j v).get? j = some v := by
  induction l generalizing j with
  | nil => simp at h
  | cons x xs ih =>
    cases j with
    | zero => rfl
    | succ j =>
      show (xs.set j v).get? j = some v
      exact ih j (by simp only [List.length_cons] at h; omega)

theorem get_set_other {α : Type} (l : List α) (j k : ℕ) (v : α)
    (h : j ≠ k) : (l.set j v).get? k = l.get? k := by
  induction l generalizing j k with
  | nil => rfl
  | cons x xs ih =>
    cases j with
    | zero =>
      cases k with
      | zero => exact absurd rfl h
      | succ k => rfl
    | succ j =>
      cases k with
      | zero => rfl
      | succ k =>
        show (xs.set j v).get? k = xs.get? k
        exact ih j k (by omega)

theorem mem_of_mem_set {α : Type} (l : List α) (j : ℕ) (v x : α)
    (h : x ∈ l.set j v) : x ∈ l ∨ x = v := by
  induction l generalizing j with
  | nil => simp at h
  | cons y ys ih =>
    cases j with
    | zero =>
      simp [List.set] at h
      rcases h with h | h
      · exact Or.inr h
      · exact Or.inl (by simp [h])
    | succ j =>
      simp [List.set] at h
      rcases h with h | h
      · exact Or.inl (by simp [h])
      · rcases ih j h with h2 | h2
        · exact Or.inl (by simp [h2])
        · exact Or.inr h2

theorem takeWhile_app {α : Type} (p : α → Bool) (xs ys : List α)
    (h1 : ∀ c ∈ xs, p c = true)
    (h2 : ∀ y, ys.head? = some y → p y = false) :
    (xs ++ ys).takeWhile p = xs ∧ (xs ++ ys).dropWhile p = ys := by
  induction xs with
  | nil =>
    cases ys with
    | nil => simp
    | cons y ys =>
      have hy := h2 y rfl
      simp [List.takeWhile_cons, List.dropWhile_cons, hy]
  | cons x xs ih =>
    have hx := h1 x (by simp)
    have ⟨t, d⟩ := ih (fun c hc => h1 c (by simp [hc]))
    simp [List.takeWhile_cons, List.dropWhile_cons, hx, t, d]

theorem head_dropWhile_false {α : Type} (p : α → Bool) (l : List α) :
    ∀ y, (l.dropWhile p).head? = some y → p y = false := by
  intro y hy
  induction l with
  | nil => simp at hy
  | cons x xs ih =>
    by_cases hx : p x
    · rw [List.dropWhile_cons_of_pos hx] at hy
      exact ih hy
    · rw [List.dropWhile_cons_of_neg hx] at hy
      simp at hy
      subst hy
      simpa using hx

theorem ne_nil_of_isEmpty_false {α : Type} {l : List α}
    (h : l.isEmpty = false) : l ≠ [] := by
  cases l
  · simp at h
  · simp

-- ── Characterization of the price regex ──

theorem quote_not_ws (c : Char) (h : isQuote c = true) : isWS c = false := by
  have hn : (c.toNat = 39 ∨ c.toNat = 34) ∨ c.toNat = 96 := by
    simpa [isQuote, Bool.or_eq_true, decide_eq_true_eq] using h
  rw [Bool.eq_false_iff]
  intro hw
  simp only [isWS, Bool.or_eq_true, Bool.and_eq_true, decide_eq_true_eq] at hw
  omega

/-- Rebuilding a matched line from its groups with any nonempty quote-free
middle matches again, with the same first and third group. -/
theorem matchPriceLine_build (p m s : Line) (hp : PShapeOf p) (hm : MidOK m)
    (hs : SufOK s) : matchPriceLine (p ++ m ++ s) = some (p, m, s) := by
  obtain ⟨ws1, ws2, ws3, q, hws1, hws2, hws3, hq, rfl⟩ := hp
  obtain ⟨hm0, hmq⟩ := hm
  obtain ⟨qc, r, rfl, hqc⟩ := hs
  have hassoc :
      (ws1 ++ priceWord ++ ws2 ++ ':' :: ws3 ++ [q]) ++ m ++ (qc :: r) =
      ws1 ++ (priceWord ++ (ws2 ++ (':' :: (ws3 ++ (q :: (m ++ qc :: r)))))) := by
    simp [List.append_assoc]
  have h1 := takeWhile_app isWS ws1
    (priceWord ++ (ws2 ++ (':' :: (ws3 ++ (q :: (m ++ qc :: r))))))
    hws1 (by intro y hy; simp [priceWord] at hy; subst hy; decide)
  have h2 : priceWord.isPrefixOf
      (priceWord ++ (ws2 ++ (':' :: (ws3 ++ (q :: (m ++ qc :: r)))))) = true :=
    List.isPrefixOf_iff_prefix.2 ( List.prefix_append _ _)
  have h3 : (priceWord ++ (ws2 ++ (':' :: (ws3 ++ (q :: (m ++ qc :: r)))))).drop 5 =
      ws2 ++ (':' :: (ws3 ++ (q :: (m ++ qc :: r)))) :=
    List.drop_left priceWord _
  have h4 := takeWhile_app isWS ws2 (':' :: (ws3 ++ (q :: (m ++ qc :: r))))
    hws2 (by intro y hy; simp at hy; subst hy; decide)
  have h5 := takeWhile_app isWS ws3 (q :: (m ++ qc :: r))
    hws3 (by intro y hy; simp at hy; subst hy; exact quote_not_ws q hq)
  have h6 := takeWhile_app (fun c => !isQuote c) m (qc :: r)
    (by intro c hc; simp [hmq c hc]) (by intro y hy; simp at hy; subst hy; simp [hqc])
  rw [hassoc]
  unfold matchPriceLine
  simp only [h1.1, h1.2, h2, if_true, h3, h4.1, h4.2, h5.1, h5.2, hq, h6.1, h6.2]
  simp [hm0, List.append_assoc]

/-- A successful match decomposes the line into the three groups, with the
first group of the declared shape, the middle nonempty and quote-free, and
the third group starting with a quote. -/
theorem matchPriceLine_inv (l p m s : Line)
    (h : matchPriceLine l = some (p, m, s)) :
    l = p ++ m ++ s ∧ PShapeOf p ∧ MidOK m ∧ SufOK s := by
  simp only [matchPriceLine] at h
  split at h
  case isFalse => exact Option.noConfusion h
  case isTrue hpre =>
  split at h
  any_goals exact Option.noConfusion h
  next x r4 heq4 =>
  split at h
  any_goals exact Option.noConfusion h
  next q r6 heq6 =>
  split at h
  case isFalse => exact Option.noConfusion h
  case isTrue hq =>
  split at h
  case isTrue => exact Option.noConfusion h
  case isFalse hne =>
  rw [Option.some_inj] at h
  obtain ⟨hp, hrest⟩ := Prod.ext_iff.1 h
  obtain ⟨hm, hs⟩ := Prod.ext_iff.1 hrest
  simp only at hp hm hs
  subst hp hm hs
  have hl1 : l.takeWhile isWS ++ l.dropWhile isWS = l :=
    List.takeWhile_append_dropWhile isWS l
  have hl2 : priceWord ++ (l.dropWhile isWS).drop 5 = l.dropWhile isWS := by
    have hpre2 : priceWord <+: l.dropWhile isWS := List.isPrefixOf_iff_prefix.1 hpre
    have h5 : priceWord.length = 5 := rfl
    have h6 := List.prefix_iff_eq_append.1 hpre2
    rwa [h5] at h6
  have hl3 : ((l.dropWhile isWS).drop 5).takeWhile isWS ++ (':' :: r4) =
      (l.dropWhile isWS).drop 5 := by
    rw [← heq4]
    exact List.takeWhile_append_dropWhile isWS _
  have hl4 : r4.takeWhile isWS ++ (q :: r6) = r4 := by
    rw [← heq6]
    exact List.takeWhile_append_dropWhile isWS _
  have hl5 : (r6.takeWhile fun c => !isQuote c) ++ (r6.dropWhile fun c => !isQuote c) = r6 :=
    List.takeWhile_append_dropWhile _ _
  have hne2 : ((r6.takeWhile fun c => !isQuote c).isEmpty ||
      (r6.dropWhile fun c => !isQuote c).isEmpty) = false := by
    revert hne
    cases ((r6.takeWhile fun c => !isQuote c).isEmpty ||
        (r6.dropWhile fun c => !isQuote c).isEmpty) <;> simp
  rw [Bool.or_eq_false_iff] at hne2
  have hmid0 : (r6.takeWhile fun c => !isQuote c) ≠ [] :=
    ne_nil_of_isEmpty_false hne2.1
  have hrest0 : (r6.dropWhile fun c => !isQuote c) ≠ [] :=
    ne_nil_of_isEmpty_false hne2.2
  refine ⟨?_, ?_, ?_, ?_⟩
  · conv_lhs => rw [← hl1, ← hl2, ← hl3, ← hl4, ← hl5]
    simp [List.append_assoc]
  · exact ⟨l.takeWhile isWS, ((l.dropWhile isWS).drop 5).takeWhile isWS,
      r4.takeWhile isWS, q,
      fun c hc => List.mem_takeWhile_imp hc,
      fun c hc => List.mem_takeWhile_imp hc,
      fun c hc => List.mem_takeWhile_imp hc, hq, by simp [List.append_assoc]⟩
  · refine ⟨hmid0, fun c hc => ?_⟩
    have hq2 := List.mem_takeWhile_imp hc
    simpa using hq2
  · rcases hr : r6.dropWhile fun c => !isQuote c with _ | ⟨y, t⟩
    · exact absurd hr hrest0
    · refine ⟨y, t, rfl, ?_⟩
      have hy := head_dropWhile_false (fun c => !isQuote c) r6 y (by rw [hr]; rfl)
      simpa using hy

-- ── Characters of the formatted price ──

theorem digitCh_not_quote (k : ℕ) : isQuote (digitCh k) = false := by
  rcases k with _|_|_|_|_|_|_|_|_|k <;> rfl

theorem digitCh_ne_nl (k : ℕ) : digitCh k ≠ '\n' := by
  rcases k with _|_|_|_|_|_|_|_|_|k <;>
    first
      | decide
      | exact (by decide : ('9' : Char) ≠ '\n')

theorem natDigitsF_chars :
    ∀ f n (acc : Line) c, c ∈ natDigitsF f n acc → c ∈ acc ∨ ∃ k, c = digitCh k := by
  intro f
  induction f with
  | zero => intro n acc c hc; exact Or.inl hc
  | succ f ih =>
    intro n acc c hc
    unfold natDigitsF at hc
    split at hc
    · rcases List.mem_cons.1 hc with h | h
      · exact Or.inr ⟨n, h⟩
      · exact Or.inl h
    · rcases ih (n / 10) (digitCh (n % 10) :: acc) c hc with h | h
      · rcases List.mem_cons.1 h with h2 | h2
        · exact Or.inr ⟨n % 10, h2⟩
        · exact Or.inl h2
      · exact Or.inr h

theorem natDigits_chars (n : ℕ) (c : Char) (hc : c ∈ natDigits n) :
    ∃ k, c = digitCh k := by
  rcases natDigitsF_chars (n + 1) n [] c hc with h | h
  · simp at h
  · exact h

theorem natDigitsF_ne_nil :
    ∀ f n (acc : Line), 0 < f ∨ acc ≠ [] → natDigitsF f n acc ≠ [] := by
  intro f
  induction f with
  | zero =>
    intro n acc h
    rcases h with h | h
    · omega
    · exact h
  | succ f ih =>
    intro n acc h
    unfold natDigitsF
    split
    · exact List.cons_ne_nil _ _
    · exact ih (n / 10) (digitCh (n % 10) :: acc) (Or.inr (List.cons_ne_nil _ _))

theorem natDigits_ne_nil (n : ℕ) : natDigits n ≠ [] :=
  natDigitsF_ne_nil (n + 1) n [] (Or.inl (by omega))

theorem intDigits_chars (i : ℤ) (c : Char) (hc : c ∈ intDigits i) :
    c = '-' ∨ ∃ k, c = digitCh k := by
  unfold intDigits at hc
  split at hc
  · rcases List.mem_cons.1 hc with h | h
    · exact Or.inl h
    · exact Or.inr (natDigits_chars _ c h)
  · exact Or.inr (natDigits_chars _ c hc)

theorem fmtPrice_chars (q : ℚ) (cur : Line) (c : Char) (hc : c ∈ fmtPrice q cur) :
    isQuote c = false ∧ c ≠ '\n' := by
  unfold fmtPrice at hc
  have hint : c ∈ intDigits (jsRound q) → isQuote c = false ∧ c ≠ '\n' := by
    intro h
    rcases intDigits_chars _ c h with h2 | ⟨k, h2⟩
    · subst h2; exact ⟨rfl, by decide⟩
    · subst h2; exact ⟨digitCh_not_quote k, digitCh_ne_nl k⟩
  split at hc
  · rcases List.mem_cons.1 hc with h | h
    · subst h; exact ⟨rfl, by decide⟩
    · exact hint h
  · rcases List.mem_append.1 hc with h | h
    · exact hint h
    · simp at h
      subst h
      exact ⟨rfl, by decide⟩

theorem fmtPrice_midOK (q : ℚ) (cur : Line) : MidOK (fmtPrice q cur) := by
  constructor
  · unfold fmtPrice
    split
    · exact List.cons_ne_nil _ _
    · simp
  · intro c hc
    exact (fmtPrice_chars q cur c hc).1

-- ── Window scan lemmas ──

/-- One unfolding step of the window scan. -/
theorem scanWindow_succ (cur : List Line) (stop : ℕ) (n : ℚ) (c : Line)
    (fuel j : ℕ) :
    scanWindow cur stop n c (fuel + 1) j =
      if j < stop then
        match cur.get? j with
        | none => none
        | some l =>
          match matchPriceLine l with
          | some (pre, mid, suf) =>
            match parsePrice mid with
            | none => none
            | some v =>
              if v = 0 then none
              else if changePct n v < MIN_CHANGE_PCT then none
              else some (j, pre ++ fmtPrice n c ++ suf)
          | none =>
            if isAsinLine l then none
            else scanWindow cur stop n c fuel (j + 1)
      else none := rfl

/-- Inversion of a successful window scan: the scan fired at a price line,
whose recorded price parses to a nonzero value with a change at least the
threshold, and the produced line keeps the first and third group around the
formatted new price. -/
theorem scan_some_inv (cur : List Line) (stop : ℕ) (n : ℚ) (c : Line) :
    ∀ fuel j jj v, scanWindow cur stop n c fuel j = some (jj, v) →
      j ≤ jj ∧ jj < stop ∧ ∃ l pre mid suf u, cur.get? jj = some l ∧
        matchPriceLine l = some (pre, mid, suf) ∧ parsePrice mid = some u ∧
        u ≠ 0 ∧ ¬ changePct n u < MIN_CHANGE_PCT ∧
        v = pre ++ fmtPrice n c ++ suf := by
  intro fuel
  induction fuel with
  | zero => intro j jj v h; exact Option.noConfusion h
  | succ fuel ih =>
    intro j jj v h
    unfold scanWindow at h
    split at h
    case isFalse => exact Option.noConfusion h
    case isTrue hj =>
    split at h
    case h_1 => exact Option.noConfusion h
    case h_2 l hl =>
    split at h
    case h_2 hm =>
      split at h
      case isTrue => exact Option.noConfusion h
      case isFalse ha =>
        obtain ⟨h1, h2, h3⟩ := ih (j + 1) jj v h
        exact ⟨by omega, h2, h3⟩
    case h_1 pre mid suf hm =>
    split at h
    case h_1 => exact Option.noConfusion h
    case h_2 u hu =>
    split at h
    case isTrue => exact Option.noConfusion h
    case isFalse hu0 =>
    split at h
    case isTrue => exact Option.noConfusion h
    case isFalse hpct =>
    rw [Option.some_inj] at h
    obtain ⟨hjj, hv⟩ := Prod.ext_iff.1 h
    simp only at hjj hv
    subst hjj
    exact ⟨le_refl j, hj, l, pre, mid, suf, u, hl, hm, hu, hu0, hpct, hv.symm⟩

/-- A scan that fails, and a scan that ends without firing, stay so when the
walk continues; conversely a firing scan is determined by its decision
point.  This transfer lemma relates the scan of a list and of the same list
with the fired line replaced by its rewritten form: the new scan either
finds nothing, or fires exactly at the replaced position writing the very
line stored there, or agrees with the old scan away from that position. -/
theorem scan_transfer (cur : List Line) (j : ℕ) (l pre mid suf : Line)
    (n : ℚ) (c : Line)
    (hl : cur.get? j = some l) (hm : matchPriceLine l = some (pre, mid, suf)) :
    ∀ fuel j0 stop,
      scanWindow (cur.set j (pre ++ fmtPrice n c ++ suf)) stop n c fuel j0 = none
      ∨ scanWindow (cur.set j (pre ++ fmtPrice n c ++ suf)) stop n c fuel j0 =
          some (j, pre ++ fmtPrice n c ++ suf)
      ∨ (scanWindow (cur.set j (pre ++ fmtPrice n c ++ suf)) stop n c fuel j0 =
          scanWindow cur stop n c fuel j0 ∧
          ∀ v, scanWindow cur stop n c fuel j0 ≠ some (j, v)) := by
  have hjlen : j < cur.length := by
    rcases List.get?_eq_some.1 hl with ⟨h, _⟩
    exact h
  have hmatch2 : matchPriceLine (pre ++ fmtPrice n c ++ suf) =
      some (pre, fmtPrice n c, suf) := by
    obtain ⟨_, hp, _, hs⟩ := matchPriceLine_inv l pre mid suf hm
    exact matchPriceLine_build pre (fmtPrice n c) suf hp (fmtPrice_midOK n c) hs
  intro fuel
  induction fuel with
  | zero =>
    intro j0 stop
    exact Or.inr (Or.inr ⟨rfl, fun v h => Option.noConfusion h⟩)
  | succ fuel ih =>
    intro j0 stop
    by_cases hj0 : j0 < stop
    case neg =>
      refine Or.inr (Or.inr ⟨?_, fun v h => ?_⟩)
      · rw [scanWindow_succ, scanWindow_succ, if_neg hj0, if_neg hj0]
      · rw [scanWindow_succ, if_neg hj0] at h
        exact Option.noConfusion h
    case pos =>
    by_cases hjj : j0 = j
    case pos =>
      subst hjj
      have hget : (cur.set j0 (pre ++ fmtPrice n c ++ suf)).get? j0 =
          some (pre ++ fmtPrice n c ++ suf) := get_set_same cur j0 _ hjlen
      rcases hp : parsePrice (fmtPrice n c) with _ | u
      · refine Or.inl ?_
        rw [scanWindow_succ, if_pos hj0, hget]
        simp only [hmatch2, hp]
      · by_cases hu0 : u = 0
        · refine Or.inl ?_
          rw [scanWindow_succ, if_pos hj0, hget]
          simp only [hmatch2, hp, if_pos hu0]
        · by_cases hpct : changePct n u < MIN_CHANGE_PCT
          · refine Or.inl ?_
            rw [scanWindow_succ, if_pos hj0, hget]
            simp only [hmatch2, hp, if_neg hu0, if_pos hpct]
          · refine Or.inr (Or.inl ?_)
            rw [scanWindow_succ, if_pos hj0, hget]
            simp only [hmatch2, hp, if_neg hu0, if_neg hpct]
    case neg =>
      have hget : (cur.set j (pre ++ fmtPrice n c ++ suf)).get? j0 = cur.get? j0 :=
        get_set_other cur j j0 _ (fun h => hjj h.symm)
      rcases hg : cur.get? j0 with _ | l0
      · refine Or.inr (Or.inr ⟨?_, fun v h => ?_⟩)
        · rw [scanWindow_succ, scanWindow_succ, if_pos hj0, if_pos hj0, hget, hg]
        · rw [scanWindow_succ, if_pos hj0, hg] at h
          exact Option.noConfusion h
      · rcases hm0 : matchPriceLine l0 with _ | ⟨⟨p0, m0, s0⟩⟩
        · by_cases ha : isAsinLine l0 = true
          · refine Or.inr (Or.inr ⟨?_, fun v h => ?_⟩)
            · rw [scanWindow_succ, scanWindow_succ, if_pos hj0, if_pos hj0, hget, hg]
              simp only [hm0, ha, if_true]
            · rw [scanWindow_succ, if_pos hj0, hg] at h
              simp only [hm0, ha, if_true] at h
              exact Option.noConfusion h
          · have e1 : scanWindow (cur.set j (pre ++ fmtPrice n c ++ suf)) stop n c
                (fuel + 1) j0 =
                scanWindow (cur.set j (pre ++ fmtPrice n c ++ suf)) stop n c fuel (j0 + 1) := by
              rw [scanWindow_succ, if_pos hj0, hget, hg]
              simp only [hm0, ha, if_false, Bool.false_eq_true]
            have e2 : scanWindow cur stop n c (fuel + 1) j0 =
                scanWindow cur stop n c fuel (j0 + 1) := by
              rw [scanWindow_succ, if_pos hj0, hg]
              simp only [hm0, ha, if_false, Bool.false_eq_true]
            rw [e1, e2]
            exact ih (j0 + 1) stop
        · rcases hp : parsePrice m0 with _ | u
          · refine Or.inr (Or.inr ⟨?_, fun v h => ?_⟩)
            · rw [scanWindow_succ, scanWindow_succ, if_pos hj0, if_pos hj0, hget, hg]
              simp only [hm0, hp]
            · rw [scanWindow_succ, if_pos hj0, hg] at h
              simp only [hm0, hp] at h
              exact Option.noConfusion h
          · by_cases hu0 : u = 0
            · refine Or.inr (Or.inr ⟨?_, fun v h => ?_⟩)
              · rw [scanWindow_succ, scanWindow_succ, if_pos hj0, if_pos hj0, hget, hg]
                simp only [hm0, hp, if_pos hu0]
              · rw [scanWindow_succ, if_pos hj0, hg] at h
                simp only [hm0, hp, if_pos hu0] at h
                exact Option.noConfusion h
            · by_cases hpct : changePct n u < MIN_CHANGE_PCT
              · refine Or.inr (Or.inr ⟨?_, fun v h => ?_⟩)
                · rw [scanWindow_succ, scanWindow_succ, if_pos hj0, if_pos hj0, hget, hg]
                  simp only [hm0, hp, if_neg hu0, if_pos hpct]
                · rw [scanWindow_succ, if_pos hj0, hg] at h
                  simp only [hm0, hp, if_neg hu0, if_pos hpct] at h
                  exact Option.noConfusion h
              · refine Or.inr (Or.inr ⟨?_, fun v h => ?_⟩)
                · rw [scanWindow_succ, scanWindow_succ, if_pos hj0, if_pos hj0, hget, hg]
                  simp only [hm0, hp, if_neg hu0, if_neg hpct]
                · rw [scanWindow_succ, if_pos hj0, hg] at h
                  simp only [hm0, hp, if_neg hu0, if_neg hpct] at h
                  rw [Option.some_inj] at h
                  exact hjj (Prod.ext_iff.1 h).1

-- ── Outer loop lemmas ──

/-- One unfolding step of the outer loop. -/
theorem updateLinesAux_succ (a : Line) (n : ℚ) (c : Line) (fuel : ℕ)
    (cur : List Line) (i : ℕ) (ch : Bool) :
    updateLinesAux a n c (fuel + 1) cur i ch =
      match cur.get? i with
      | none => (cur, ch)
      | some l =>
        if isAsinLine l && containsSub l a then
          match scanWindow cur (min (i + 10) cur.length) n c
              (min (i + 10) cur.length) (i + 1) with
          | some (j, nl) => updateLinesAux a n c fuel (cur.set j nl) (i + 1) true
          | none => updateLinesAux a n c fuel cur (i + 1) ch
        else updateLinesAux a n c fuel cur (i + 1) ch := rfl

/-- The outer loop never changes the number of lines. -/
theorem run_length (a : Line) (n : ℚ) (c : Line) :
    ∀ fuel cur i ch, (updateLinesAux a n c fuel cur i ch).1.length = cur.length := by
  intro fuel
  induction fuel with
  | zero => intro cur i ch; rfl
  | succ fuel ih =>
    intro cur i ch
    rw [updateLinesAux_succ]
    rcases hg : cur.get? i with _ | l
    · rfl
    · by_cases hocc : (isAsinLine l && containsSub l a) = true
      · simp only [if_pos hocc]
        rcases hscan : scanWindow cur (min (i + 10) cur.length) n c
            (min (i + 10) cur.length) (i + 1) with _ | ⟨j, nl⟩
        · exact ih cur (i + 1) ch
        · exact (ih (cur.set j nl) (i + 1) true).trans (List.length_set cur j nl)
      · simp only [if_neg hocc]
        exact ih cur (i + 1) ch

/-- Running the outer loop over a list in which every index is benign
returns the list unchanged. -/
theorem run_on_stable (a : Line) (n : ℚ) (c : Line) :
    ∀ fuel cur i ch, (∀ k, Benign a n c cur k) →
      (updateLinesAux a n c fuel cur i ch).1 = cur := by
  intro fuel
  induction fuel with
  | zero => intro cur i ch _; rfl
  | succ fuel ih =>
    intro cur i ch hben
    rw [updateLinesAux_succ]
    rcases hg : cur.get? i with _ | l
    · rfl
    · by_cases hocc : (isAsinLine l && containsSub l a) = true
      · simp only [if_pos hocc]
        rcases hscan : scanWindow cur (min (i + 10) cur.length) n c
            (min (i + 10) cur.length) (i + 1) with _ | ⟨j, nl⟩
        · exact ih cur (i + 1) ch hben
        · have hbv := hben i ⟨l, hg, hocc⟩ j nl hscan
          have e : cur.set j nl = cur := get_set_self cur j nl hbv
          have h2 := ih (cur.set j nl) (i + 1) true (by rw [e]; exact hben)
          exact h2.trans e
      · simp only [if_neg hocc]
        exact ih cur (i + 1) ch hben

/-- The outer loop preserves newline-freedom of the lines. -/
theorem run_nlfree (a : Line) (n : ℚ) (c : Line) :
    ∀ fuel cur i ch, NLFree cur → NLFree (updateLinesAux a n c fuel cur i ch).1 := by
  intro fuel
  induction fuel with
  | zero => intro cur i ch h; exact h
  | succ fuel ih =>
    intro cur i ch hnl
    rw [updateLinesAux_succ]
    rcases hg : cur.get? i with _ | l
    · exact hnl
    · by_cases hocc : (isAsinLine l && containsSub l a) = true
      · simp only [if_pos hocc]
        rcases hscan : scanWindow cur (min (i + 10) cur.length) n c
            (min (i + 10) cur.length) (i + 1) with _ | ⟨j, nl⟩
        · exact ih cur (i + 1) ch hnl
        · refine ih (cur.set j nl) (i + 1) true ?_
          obtain ⟨_, _, hfacts⟩ := scan_some_inv cur _ n c _ (i + 1) j nl hscan
          obtain ⟨lj, pre, mid, suf, u, hlj, hmj, _, _, _, hnlv⟩ := hfacts
          have hljmem : '
' ∉ lj := hnl lj (List.get?_mem hlj)
          obtain ⟨hdec, _, _, _⟩ := matchPriceLine_inv lj pre mid suf hmj
          intro x hx
          rcases mem_of_mem_set cur j nl x hx with hx2 | hx2
          · exact hnl x hx2
          · subst hx2 hnlv
            intro hmem
            rcases List.mem_append.1 hmem with h2 | h2
            · rcases List.mem_append.1 h2 with h3 | h3
              · exact hljmem (by rw [hdec]; exact List.mem_append_left _ (List.mem_append_left _ h3))
              · exact absurd rfl (fmtPrice_chars n c _ h3).2
            · exact hljmem (by rw [hdec]; exact List.mem_append_right _ h2)
      · simp only [if_neg hocc]
        exact ih cur (i + 1) ch hnl

/-- After the outer loop has processed every index, every index of the
resulting list is benign: the list has become a fixed point of the patcher.
The induction carries that already-processed indices are benign and that the
replacement of a fired line preserves benignity of earlier indices. -/
theorem run_benign (a : Line) (n : ℚ) (c : Line) :
    ∀ fuel cur i ch, cur.length ≤ i + fuel →
      (∀ k, k < i → Benign a n c cur k) →
      ∀ k, Benign a n c (updateLinesAux a n c fuel cur i ch).1 k := by
  intro fuel
  induction fuel with
  | zero =>
    intro cur i ch hlen hben k
    show Benign a n c cur k
    by_cases hk : k < i
    · exact hben k hk
    · intro hocc jj v hscan
      obtain ⟨l, hget, _⟩ := hocc
      have hnone : cur.get? k = none := List.get?_eq_none.2 (by omega)
      rw [hnone] at hget
      exact Option.noConfusion hget
  | succ fuel ih =>
    intro cur i ch hlen hben k
    rw [updateLinesAux_succ]
    rcases hg : cur.get? i with _ | l
    · have hli : cur.length ≤ i := List.get?_eq_none.1 hg
      show Benign a n c cur k
      by_cases hk : k < i
      · exact hben k hk
      · intro hocc jj v hscan
        obtain ⟨l, hget, _⟩ := hocc
        have hnone : cur.get? k = none := List.get?_eq_none.2 (by omega)
        rw [hnone] at hget
        exact Option.noConfusion hget
    · by_cases hocc : (isAsinLine l && containsSub l a) = true
      · simp only [if_pos hocc]
        rcases hscan : scanWindow cur (min (i + 10) cur.length) n c
            (min (i + 10) cur.length) (i + 1) with _ | ⟨j, nl⟩
        · refine ih cur (i + 1) ch (by omega) (fun k2 hk2 => ?_) k
          by_cases hk2i : k2 < i
          · exact hben k2 hk2i
          · have hk2e : k2 = i := by omega
            subst hk2e
            intro _ jj v hscan2
            rw [hscan] at hscan2
            exact Option.noConfusion hscan2
        · obtain ⟨hj1, hj2, lj, pre, mid, suf, u, hlj, hmj, hpu, hu0, hpct, hnlv⟩ :=
            scan_some_inv cur _ n c _ (i + 1) j nl hscan
          subst hnlv
          have hjlen : j < cur.length := by
            rcases List.get?_eq_some.1 hlj with ⟨h, _⟩
            exact h
          have hlenset : (cur.set j (pre ++ fmtPrice n c ++ suf)).length = cur.length :=
            List.length_set ..
          refine ih (cur.set j (pre ++ fmtPrice n c ++ suf)) (i + 1) true
            (by rw [hlenset]; omega) (fun k2 hk2 => ?_) k
          intro hocc2 jj v hscan2
          rw [hlenset] at hscan2
          obtain ⟨lk, hgetk, hocck⟩ := hocc2
          have hk2j : k2 ≠ j := by omega
          rw [get_set_other cur j k2 _ (fun e => hk2j e.symm)] at hgetk
          rcases scan_transfer cur j lj pre mid suf n c hlj hmj
              (min (k2 + 10) cur.length) (k2 + 1) (min (k2 + 10) cur.length)
            with h1 | h1 | ⟨h1, h2⟩
          · rw [h1] at hscan2
            exact Option.noConfusion hscan2
          · rw [h1] at hscan2
            rw [Option.some_inj] at hscan2
            obtain ⟨hjje, hve⟩ := Prod.ext_iff.1 hscan2
            simp only at hjje hve
            subst hjje
            subst hve
            exact get_set_same cur j _ hjlen
          · rw [h1] at hscan2
            by_cases hk2i : k2 < i
            · have hbv := hben k2 hk2i ⟨lk, hgetk, hocck⟩ jj v hscan2
              have hjjj : jj ≠ j := fun e => h2 v (e ▸ hscan2)
              rw [get_set_other cur j jj _ (fun e => hjjj e.symm)]
              exact hbv
            · have hk2e : k2 = i := by omega
              subst hk2e
              exact absurd hscan (h2 _)
      · simp only [if_neg hocc]
        refine ih cur (i + 1) ch (by omega) (fun k2 hk2 => ?_) k
        by_cases hk2i : k2 < i
        · exact hben k2 hk2i
        · have hk2e : k2 = i := by omega
          subst hk2e
          intro hocc2
          obtain ⟨lk, hgetk, hocck⟩ := hocc2
          rw [hg] at hgetk
          rw [Option.some_inj] at hgetk
          subst hgetk
          exact absurd hocck hocc

-- ── Split and join of file content ──

theorem splitLinesCh_ne_nil (l : List Char) : splitLinesCh l ≠ [] := by
  cases l with
  | nil => simp [splitLinesCh]
  | cons c cs =>
    unfold splitLinesCh
    rcases h : splitLinesCh cs with _ | ⟨x, xs⟩
    · simp
    · by_cases hc : c = '\n' <;> simp [hc]

theorem splitLinesCh_nlfree (l : List Char) : NLFree (splitLinesCh l) := by
  induction l with
  | nil => intro x hx; simp [splitLinesCh] at hx; simp [hx]
  | cons c cs ih =>
    intro x hx
    rcases h : splitLinesCh cs with _ | ⟨l0, ls⟩
    · exact absurd h (splitLinesCh_ne_nil cs)
    · unfold splitLinesCh at hx
      simp only [h] at hx
      rw [h] at ih
      by_cases hc : c = '\n'
      · rw [if_pos hc] at hx
        rcases List.mem_cons.1 hx with h2 | h2
        · subst h2; simp
        · exact ih x h2
      · rw [if_neg hc] at hx
        rcases List.mem_cons.1 hx with h2 | h2
        · subst h2
          intro hmem
          rcases List.mem_cons.1 hmem with h3 | h3
          · exact hc h3.symm
          · exact ih l0 (by simp) h3
        · exact ih x (List.mem_cons_of_mem l0 h2)

theorem splitLinesCh_no_nl (l : List Char) (h : '\n' ∉ l) : splitLinesCh l = [l] := by
  induction l with
  | nil => rfl
  | cons c cs ih =>
    have hc : c ≠ '\n' := fun e => h (by simp [e])
    have hcs := ih (fun e => h (List.mem_cons_of_mem c e))
    unfold splitLinesCh
    simp only [hcs]
    rw [if_neg hc]

theorem splitLinesCh_cons (c : Char) (cs : List Char) :
    splitLinesCh (c :: cs) =
      match splitLinesCh cs with
      | [] => [[c]]
      | l :: ls => if c = '\n' then [] :: l :: ls else (c :: l) :: ls := rfl

theorem splitLinesCh_append (l r : List Char) (h : '\n' ∉ l) :
    splitLinesCh (l ++ '\n' :: r) = l :: splitLinesCh r := by
  induction l with
  | nil =>
    show splitLinesCh ('\n' :: r) = [] :: splitLinesCh r
    rw [splitLinesCh_cons]
    rcases hr : splitLinesCh r with _ | ⟨l0, ls⟩
    · exact absurd hr (splitLinesCh_ne_nil r)
    · simp
  | cons c cs ih =>
    have hc : c ≠ '\n' := fun e => h (by simp [e])
    have hcs := ih (fun e => h (List.mem_cons_of_mem c e))
    show splitLinesCh (c :: (cs ++ '\n' :: r)) = (c :: cs) :: splitLinesCh r
    rw [splitLinesCh_cons]
    simp only [hcs]
    rw [if_neg hc]

theorem split_join (ls : List Line) (h0 : ls ≠ []) (h : NLFree ls) :
    splitLinesCh (joinLinesCh ls) = ls := by
  induction ls with
  | nil => exact absurd rfl h0
  | cons l ls2 ih =>
    cases ls2 with
    | nil => exact splitLinesCh_no_nl l (h l (by simp))
    | cons l2 ls3 =>
      show splitLinesCh (l ++ '\n' :: joinLinesCh (l2 :: ls3)) = l :: l2 :: ls3
      rw [splitLinesCh_append _ _ (h l (by simp))]
      rw [ih (by simp) (fun x hx => h x (List.mem_cons_of_mem l hx))]

-- ── Idempotence assembly ──

/-- Every index of the patched line list is benign. -/
theorem updateFileLines_stable (lines : List Line) (a : Line) (n : ℚ) (c : Line) :
    ∀ k, Benign a n c (updateFileLines lines a n c).1 k :=
  run_benign a n c lines.length lines 0 false (by omega)
    (fun k hk => absurd hk (Nat.not_lt_zero k))

/-- Patching the patched line list returns it unchanged. -/
theorem updateFileLines_idem (lines : List Line) (a : Line) (n : ℚ) (c : Line) :
    (updateFileLines (updateFileLines lines a n c).1 a n c).1 =
      (updateFileLines lines a n c).1 :=
  run_on_stable a n c (updateFileLines lines a n c).1.length
    (updateFileLines lines a n c).1 0 false (updateFileLines_stable lines a n c)

/-- C3: For every file content, identifier, new price, and currency, applying
the Patcher (updateFilePrice) a second time in succession with the same new
price yields file content byte-identical to the content after the first
application. -/
theorem updateFilePrice_idempotent (content asin : Line) (newPrice : ℚ)
    (currency : Line) :
    (updateFilePrice (updateFilePrice content asin newPrice currency).1
        asin newPrice currency).1 =
      (updateFilePrice content asin newPrice currency).1 := by
  by_cases hb : (updateFileLines (splitLinesCh content) asin newPrice currency).2 = true
  case neg =>
    have h1 : (updateFilePrice content asin newPrice currency).1 = content := by
      show (if (updateFileLines (splitLinesCh content) asin newPrice currency).2 then
          joinLinesCh (updateFileLines (splitLinesCh content) asin newPrice currency).1
        else content) = content
      rw [if_neg hb]
    rw [h1]
    exact h1
  case pos =>
    have h1 : (updateFilePrice content asin newPrice currency).1 =
        joinLinesCh (updateFileLines (splitLinesCh content) asin newPrice currency).1 := by
      show (if (updateFileLines (splitLinesCh content) asin newPrice currency).2 then
          joinLinesCh (updateFileLines (splitLinesCh content) asin newPrice currency).1
        else content) =
        joinLinesCh (updateFileLines (splitLinesCh content) asin newPrice currency).1
      rw [if_pos hb]
    rw [h1]
    have hnl : NLFree (updateFileLines (splitLinesCh content) asin newPrice currency).1 :=
      run_nlfree asin newPrice currency (splitLinesCh content).length
        (splitLinesCh content) 0 false (splitLinesCh_nlfree content)
    have hlen : (updateFileLines (splitLinesCh content) asin newPrice currency).1.length =
        (splitLinesCh content).length :=
      run_length asin newPrice currency (splitLinesCh content).length
        (splitLinesCh content) 0 false
    have hne : (updateFileLines (splitLinesCh content) asin newPrice currency).1 ≠ [] := by
      intro e
      apply splitLinesCh_ne_nil content
      have hlen0 : (splitLinesCh content).length = 0 := by
        rw [← hlen, e]
        rfl
      exact List.length_eq_zero.1 hlen0
    have hsplit : splitLinesCh (joinLinesCh
        (updateFileLines (splitLinesCh content) asin newPrice currency).1) =
        (updateFileLines (splitLinesCh content) asin newPrice currency).1 :=
      split_join _ hne hnl
    show (if (updateFileLines (splitLinesCh (joinLinesCh
          (updateFileLines (splitLinesCh content) asin newPrice currency).1))
          asin newPrice currency).2 then
        joinLinesCh (updateFileLines (splitLinesCh (joinLinesCh
          (updateFileLines (splitLinesCh content) asin newPrice currency).1))
          asin newPrice currency).1
      else joinLinesCh (updateFileLines (splitLinesCh content) asin newPrice currency).1) =
      joinLinesCh (updateFileLines (splitLinesCh content) asin newPrice currency).1
    rw [hsplit]
    rw [updateFileLines_idem (splitLinesCh content) asin newPrice currency]
    split <;> rfl

-- ── Claim theorems ──

/-- C1: For every file whose matched price-declaration line records a price
that parses to a positive number old, the Patcher rewrites that line if and
only if the change percentage is at least the three percent threshold; in
particular, with old price 100, a new price of 102 leaves the line unchanged
and a new price of 104 rewrites the numeric portion to the rounded 104. -/
theorem threshold_rewrite_iff :
    (∀ (cur : List Line) (stop : ℕ) (n : ℚ) (c : Line) (fuel j : ℕ)
        (l pre mid suf : Line) (v : ℚ),
      stop ≤ j + fuel → j < stop → cur.get? j = some l →
      matchPriceLine l = some (pre, mid, suf) → parsePrice mid = some v →
      0 < v →
      (scanWindow cur stop n c fuel j = some (j, pre ++ fmtPrice n c ++ suf) ↔
        MIN_CHANGE_PCT ≤ changePct n v)) ∧
    updateFilePrice fileA asinX 102 euroCur = (fileA, false) ∧
    updateFilePrice fileA asinX 104 euroCur = (fileA104, true) := by
  refine ⟨?_, by decide, by decide⟩
  intro cur stop n c fuel j l pre mid suf v hfuel hj hl hm hp hv
  cases fuel with
  | zero => omega
  | succ fuel =>
    rw [scanWindow_succ, if_pos hj, hl]
    simp only [hm, hp, if_neg hv.ne']
    rcases lt_or_le (changePct n v) MIN_CHANGE_PCT with hlt | hle
    · rw [if_pos hlt]
      exact ⟨fun h => Option.noConfusion h, fun h => absurd hlt (not_lt.2 h)⟩
    · rw [if_neg (not_lt.2 hle)]
      exact ⟨fun _ => hle, fun _ => rfl⟩

/-- C1 witness: at the concrete window of fileA with new price 104 and
recorded price 100 the scan fires and rewrites to 104 euro. -/
theorem threshold_rewrite_iff_witness :
    scanWindow (splitLinesCh fileA) 2 104 euroCur 2 1 =
      some (1, "  price: \"104€\",".toList) := by
  have h := threshold_rewrite_iff.1 (splitLinesCh fileA) 2 104 euroCur 2 1
    ("  price: \"100€\",".toList) ("  price: \"".toList) ("100€".toList)
    ("\",".toList) 100
    (by decide) (by decide) (by decide) (by decide) (by decide) (by decide)
  exact h.mpr (by decide)

/-- C2: the code looks at most nine lines ahead of the identifier line, not
ten as its own documentation and the specification state: with the price
declaration ten lines after the identifier line (fileB10) even a one hundred
percent price change leaves the file untouched and the call reports no
change, while at nine lines (fileB9) the same change is applied. -/
theorem lookahead_window_nine :
    updateFilePrice fileB10 asinB 200 euroCur = (fileB10, false) ∧
    updateFilePrice fileB9 asinB 200 euroCur = (fileB9out, true) :=
  ⟨by decide, by decide⟩

/-- C4 counterexample: with recorded price 10 euro and new price 10.4 the
change is four percent, the line is reassigned, and the function returns
true, yet the rounded formatted price coincides with the recorded text, so
the written content is byte-identical to the original: the return value is
not equivalent to the content having changed. -/
theorem changed_flag_counterexample :
    ¬ ((updateFilePrice fileZ asinZ (Rat.divInt 52 5) euroCur).2 = true ↔
       (updateFilePrice fileZ asinZ (Rat.divInt 52 5) euroCur).1 ≠ fileZ) := by
  decide

/-- C4 amended: the patcher returns true exactly when some occurrence fired
and its line was re-assigned (and only then is the file written); if the
content after the call differs from the original, the returned flag is
true — but a true flag does not imply the bytes differ. -/
theorem changed_flag_amended (content asin : Line) (newPrice : ℚ)
    (currency : Line) :
    (updateFilePrice content asin newPrice currency).1 = content ∨
    (updateFilePrice content asin newPrice currency).2 = true := by
  by_cases hb : (updateFileLines (splitLinesCh content) asin newPrice currency).2 = true
  · exact Or.inr hb
  · left
    show (if (updateFileLines (splitLinesCh content) asin newPrice currency).2 then
        joinLinesCh (updateFileLines (splitLinesCh content) asin newPrice currency).1
      else content) = content
    rw [if_neg hb]

/-- Relation between the original lines and the evolving list: every line is
either untouched or the rewrite of a price line of the original, with the
same first and third capture group around the formatted price. -/
theorem run_shape (a : Line) (n : ℚ) (c : Line) :
    ∀ fuel cur i ch (orig : List Line),
      (∀ k, cur.get? k = orig.get? k ∨
        ∃ l pre mid suf, orig.get? k = some l ∧
          matchPriceLine l = some (pre, mid, suf) ∧
          cur.get? k = some (pre ++ fmtPrice n c ++ suf)) →
      ∀ k, (updateLinesAux a n c fuel cur i ch).1.get? k = orig.get? k ∨
        ∃ l pre mid suf, orig.get? k = some l ∧
          matchPriceLine l = some (pre, mid, suf) ∧
          (updateLinesAux a n c fuel cur i ch).1.get? k =
            some (pre ++ fmtPrice n c ++ suf) := by
  intro fuel
  induction fuel with
  | zero => intro cur i ch orig hR k; exact hR k
  | succ fuel ih =>
    intro cur i ch orig hR k
    rw [updateLinesAux_succ]
    rcases hg : cur.get? i with _ | l
    · exact hR k
    · by_cases hocc : (isAsinLine l && containsSub l a) = true
      · simp only [if_pos hocc]
        rcases hscan : scanWindow cur (min (i + 10) cur.length) n c
            (min (i + 10) cur.length) (i + 1) with _ | ⟨j, nl⟩
        · exact ih cur (i + 1) ch orig hR k
        · obtain ⟨hj1, hj2, lj, pre, mid, suf, u, hlj, hmj, hpu, hu0, hpct, hnlv⟩ :=
            scan_some_inv cur _ n c _ (i + 1) j nl hscan
          subst hnlv
          have hjlen : j < cur.length := by
            rcases List.get?_eq_some.1 hlj with ⟨h, _⟩
            exact h
          refine ih (cur.set j (pre ++ fmtPrice n c ++ suf)) (i + 1) true orig
            (fun k2 => ?_) k
          by_cases hkj : k2 = j
          · subst hkj
            rcases hR k2 with h1 | ⟨l0, pre0, mid0, suf0, ho, hm0, hc0⟩
            · right
              refine ⟨lj, pre, mid, suf, by rw [← h1]; exact hlj, hmj, ?_⟩
              exact get_set_same cur k2 _ hjlen
            · right
              have hlj0 : lj = pre0 ++ fmtPrice n c ++ suf0 := by
                rw [hlj] at hc0
                exact Option.some_inj.1 hc0
              obtain ⟨_, hp0, _, hs0⟩ := matchPriceLine_inv l0 pre0 mid0 suf0 hm0
              have hb : matchPriceLine (pre0 ++ fmtPrice n c ++ suf0) =
                  some (pre0, fmtPrice n c, suf0) :=
                matchPriceLine_build pre0 (fmtPrice n c) suf0 hp0 (fmtPrice_midOK n c) hs0
              have he : (pre, mid, suf) = (pre0, fmtPrice n c, suf0) := by
                rw [hlj0] at hmj
                rw [hmj] at hb
                exact Option.some_inj.1 hb

              obtain ⟨he1, he23⟩ := Prod.ext_iff.1 he
              obtain ⟨he2, he3⟩ := Prod.ext_iff.1 he23
              simp only at he1 he2 he3
              refine ⟨l0, pre0, mid0, suf0, ho, hm0, ?_⟩
              rw [← he1, ← he3]
              exact get_set_same cur k2 _ hjlen
          · rw [get_set_other cur j k2 _ (fun e => hkj e.symm)]
            exact hR k2
      · simp only [if_neg hocc]
        exact ih cur (i + 1) ch orig hR k

/-- C5: Every rewrite changes only the price substring between the opening
and closing quote of the matched price-declaration line: the first group
(leading whitespace, the word price, the colon and the opening quote) and
the third group (the closing quote and any trailing text) are preserved and
every other line is byte-identical; for example a field declared with double
quotes as 49€ becomes 52€ in the same style and the footer line is kept. -/
theorem rewrite_preserves_format :
    (∀ (lines : List Line) (a : Line) (n : ℚ) (c : Line) (k : ℕ),
      (updateFileLines lines a n c).1.get? k = lines.get? k ∨
      ∃ l pre mid suf, lines.get? k = some l ∧
        matchPriceLine l = some (pre, mid, suf) ∧
        (updateFileLines lines a n c).1.get? k =
          some (pre ++ fmtPrice n c ++ suf)) ∧
    updateFilePrice fileY asinY 52 euroCur = (fileY52, true) := by
  refine ⟨?_, by decide⟩
  intro lines a n c k
  exact run_shape a n c lines.length lines 0 false lines (fun k2 => Or.inl rfl) k

/-- C6: an occurrence whose lookahead window reaches an identifier-declaration
line before any price-declaration line is abandoned: the scan returns none,
so no line is modified; concretely, in fileI the first identifier has no
price field before the next block starts, and even a large price change for
it leaves the whole file untouched, without patching the next block. -/
theorem abandon_on_asin_interrupt :
    (∀ (cur : List Line) (stop : ℕ) (n : ℚ) (c : Line) (fuel j k : ℕ),
      stop ≤ j + fuel → j ≤ k → k < stop →
      (∀ k2, j ≤ k2 → k2 ≤ k → ∃ l, cur.get? k2 = some l ∧ matchPriceLine l = none) →
      (∃ lk, cur.get? k = some lk ∧ isAsinLine lk = true) →
      scanWindow cur stop n c fuel j = none) ∧
    updateFilePrice fileI asinA 500 euroCur = (fileI, false) := by
  refine ⟨?_, by decide⟩
  intro cur stop n c fuel
  induction fuel with
  | zero =>
    intro j k hfuel hjk hk hpath hasin
    omega
  | succ fuel ih =>
    intro j k hfuel hjk hk hpath hasin
    have hj : j < stop := by omega
    obtain ⟨l, hl, hml⟩ := hpath j (le_refl j) hjk
    rw [scanWindow_succ, if_pos hj, hl]
    simp only [hml]
    by_cases hjke : j = k
    · obtain ⟨lk, hlk, hak⟩ := hasin
      subst hjke
      rw [hl] at hlk
      rw [Option.some_inj] at hlk
      subst hlk
      rw [if_pos hak]
    · by_cases ha : isAsinLine l = true
      · rw [if_pos ha]
      · rw [if_neg ha]
        exact ih (j + 1) k (by omega) (by omega) hk
          (fun k2 h1 h2 => hpath k2 (by omega) h2) hasin

/-- C6 witness: the scan of the window of the first identifier of fileI is
abandoned at the interrupting identifier-declaration line. -/
theorem abandon_on_asin_interrupt_witness :
    scanWindow (splitLinesCh fileI) 4 500 euroCur 4 1 = none := by
  refine abandon_on_asin_interrupt.1 (splitLinesCh fileI) 4 500 euroCur 4 1 2
    (by decide) (by decide) (by decide) ?_ ?_
  · intro k2 h1 h2
    interval_cases k2
    · exact ⟨"name,".toList, by decide, by decide⟩
    · exact ⟨"asin: \"CCCCCCCCCC\",".toList, by decide, by decide⟩
  · exact ⟨"asin: \"CCCCCCCCCC\",".toList, by decide, by decide⟩

/-- The outer loop never modifies a price-declaration line whose recorded
price is unparsable or parses to zero. -/
theorem run_keeps_unparsable (a : Line) (n : ℚ) (c : Line) :
    ∀ fuel cur i ch (k : ℕ) (l pre mid suf : Line),
      cur.get? k = some l → matchPriceLine l = some (pre, mid, suf) →
      (parsePrice mid = none ∨ parsePrice mid = some 0) →
      (updateLinesAux a n c fuel cur i ch).1.get? k = some l := by
  intro fuel
  induction fuel with
  | zero => intro cur i ch k l pre mid suf hl hm hp; exact hl
  | succ fuel ih =>
    intro cur i ch k l pre mid suf hl hm hp
    rw [updateLinesAux_succ]
    rcases hg : cur.get? i with _ | li
    · exact hl
    · by_cases hocc : (isAsinLine li && containsSub li a) = true
      · simp only [if_pos hocc]
        rcases hscan : scanWindow cur (min (i + 10) cur.length) n c
            (min (i + 10) cur.length) (i + 1) with _ | ⟨j, nl⟩
        · exact ih cur (i + 1) ch k l pre mid suf hl hm hp
        · obtain ⟨hj1, hj2, lj, pre2, mid2, suf2, u, hlj, hmj, hpu, hu0, hpct, hnlv⟩ :=
            scan_some_inv cur _ n c _ (i + 1) j nl hscan
          have hkj : j ≠ k := by
            intro e
            subst e
            rw [hl] at hlj
            rw [Option.some_inj] at hlj
            subst hlj
            rw [hm] at hmj
            rw [Option.some_inj] at hmj
            obtain ⟨e1, e23⟩ := Prod.ext_iff.1 hmj
            obtain ⟨e2, e3⟩ := Prod.ext_iff.1 e23
            simp only at e1 e2 e3
            rcases hp with hp | hp
            · rw [← e2, hp] at hpu
              exact Option.noConfusion hpu
            · rw [← e2, hp] at hpu
              rw [Option.some_inj] at hpu
              exact hu0 hpu.symm
          refine ih (cur.set j nl) (i + 1) true k l pre mid suf ?_ hm hp
          rw [get_set_other cur j k nl hkj]
          exact hl
      · simp only [if_neg hocc]
        exact ih cur (i + 1) ch k l pre mid suf hl hm hp

/-- C10: a matched price-declaration line whose recorded string parses to
zero, or fails to parse, makes the scan abandon the occurrence before any
change computation, so the division by the old price is never reached with
a zero divisor, such a line is never rewritten by a whole run, and a file
recording 0€ is left untouched even for a large new price. -/
theorem zero_price_never_rewritten :
    (∀ (cur : List Line) (stop : ℕ) (n : ℚ) (c : Line) (fuel j : ℕ)
        (l pre mid suf : Line),
      cur.get? j = some l → matchPriceLine l = some (pre, mid, suf) →
      (parsePrice mid = none ∨ parsePrice mid = some 0) →
      scanWindow cur stop n c fuel j = none) ∧
    (∀ (lines : List Line) (a : Line) (n : ℚ) (c : Line) (k : ℕ)
        (l pre mid suf : Line),
      lines.get? k = some l → matchPriceLine l = some (pre, mid, suf) →
      (parsePrice mid = none ∨ parsePrice mid = some 0) →
      (updateFileLines lines a n c).1.get? k = some l) ∧
    updateFilePrice fileN asinD 500 euroCur = (fileN, false) := by
  refine ⟨?_, ?_, by decide⟩
  · intro cur stop n c fuel j l pre mid suf hl hm hp
    cases fuel with
    | zero => rfl
    | succ fuel =>
      rw [scanWindow_succ]
      by_cases hj : j < stop
      · rw [if_pos hj, hl]
        simp only [hm]
        rcases hp with hp | hp
        · rw [hp]
        · rw [hp]
          simp
      · rw [if_neg hj]
  · intro lines a n c k l pre mid suf hl hm hp
    exact run_keeps_unparsable a n c lines.length lines 0 false k l pre mid suf hl hm hp

/-- C10 witness: concrete scans abandon at the zero-price line of fileN. -/
theorem zero_price_never_rewritten_witness :
    scanWindow (splitLinesCh fileN) 2 500 euroCur 2 1 = none ∧
    (updateFileLines (splitLinesCh fileN) asinD 500 euroCur).1.get? 1 =
      some ("  price: \"0€\",".toList) := by
  constructor
  · exact zero_price_never_rewritten.1 (splitLinesCh fileN) 2 500 euroCur 2 1
      ("  price: \"0€\",".toList) ("  price: \"".toList) ("0€".toList)
      ("\",".toList) (by decide) (by decide) (Or.inr (by decide))
  · exact zero_price_never_rewritten.2.1 (splitLinesCh fileN) asinD 500 euroCur 1
      ("  price: \"0€\",".toList) ("  price: \"".toList) ("0€".toList)
      ("\",".toList) (by decide) (by decide) (Or.inr (by decide))

-- ── Decimal digits: value and injectivity ──

theorem natDigitsF_fuel : ∀ n f g (acc : Line), n < f → n < g →
    natDigitsF f n acc = natDigitsF g n acc := by
  intro n
  induction n using Nat.strong_induction_on with
  | _ n ih =>
    intro f g acc hf hg
    cases f with
    | zero => omega
    | succ f =>
      cases g with
      | zero => omega
      | succ g =>
        unfold natDigitsF
        by_cases h10 : n < 10
        · rw [if_pos h10, if_pos h10]
        · rw [if_neg h10, if_neg h10]
          have hdiv : n / 10 < n := Nat.div_lt_self (by omega) (by omega)
          exact ih (n / 10) hdiv f g _ (by omega) (by omega)

theorem natDigitsF_append : ∀ n f (acc : Line), n < f →
    natDigitsF f n acc = natDigitsF f n [] ++ acc := by
  intro n
  induction n using Nat.strong_induction_on with
  | _ n ih =>
    intro f acc hf
    cases f with
    | zero => omega
    | succ f =>
      unfold natDigitsF
      by_cases h10 : n < 10
      · rw [if_pos h10, if_pos h10]
        rfl
      · rw [if_neg h10, if_neg h10]
        have hdiv : n / 10 < n := Nat.div_lt_self (by omega) (by omega)
        have hfd : n / 10 < f := by omega
        rw [ih (n / 10) hdiv f (digitCh (n % 10) :: acc) hfd,
          ih (n / 10) hdiv f [digitCh (n % 10)] hfd]
        simp

theorem natDigits_ge10 (n : ℕ) (h : 10 ≤ n) :
    natDigits n = natDigits (n / 10) ++ [digitCh (n % 10)] := by
  have hdiv : n / 10 < n := Nat.div_lt_self (by omega) (by omega)
  show natDigitsF (n + 1) n [] = _
  unfold natDigitsF
  rw [if_neg (by omega)]
  rw [natDigitsF_append (n / 10) n [digitCh (n % 10)] (by omega)]
  rw [natDigitsF_fuel (n / 10) n (n / 10 + 1) [] (by omega) (by omega)]
  rfl

theorem natDigits_lt10 (n : ℕ) (h : n < 10) : natDigits n = [digitCh n] := by
  show natDigitsF (n + 1) n [] = _
  unfold natDigitsF
  rw [if_pos h]

theorem digitsVal_append_one (xs : Line) (ch : Char) :
    digitsVal (xs ++ [ch]) = 10 * digitsVal xs + (ch.toNat - 48) := by
  simp [digitsVal, List.foldl_append]

theorem digitCh_toNat (k : ℕ) (h : k < 10) : (digitCh k).toNat - 48 = k := by
  interval_cases k <;> rfl

theorem digitsVal_natDigits : ∀ n, digitsVal (natDigits n) = n := by
  intro n
  induction n using Nat.strong_induction_on with
  | _ n ih =>
    by_cases h10 : n < 10
    · rw [natDigits_lt10 n h10]
      show 10 * 0 + ((digitCh n).toNat - 48) = n
      rw [digitCh_toNat n h10]
      omega
    · have hdiv : n / 10 < n := Nat.div_lt_self (by omega) (by omega)
      rw [natDigits_ge10 n (by omega), digitsVal_append_one,
        ih (n / 10) hdiv, digitCh_toNat (n % 10) (by omega)]
      omega

theorem natDigits_inj (m n : ℕ) (h : natDigits m = natDigits n) : m = n := by
  rw [← digitsVal_natDigits m, ← digitsVal_natDigits n, h]

theorem digitCh_ne_dash (k : ℕ) : digitCh k ≠ '-' := by
  rcases k with _|_|_|_|_|_|_|_|_|k <;>
    first
      | decide
      | exact (by decide : ('9' : Char) ≠ '-')

theorem dash_not_in_natDigits (d : ℕ) : '-' ∉ natDigits d := by
  intro h
  obtain ⟨k, hk⟩ := natDigits_chars d '-' h
  exact digitCh_ne_dash k hk.symm

theorem append_cons_inj {α : Type} (c : α) :
    ∀ (x1 y1 x2 y2 : List α), x1 ++ c :: y1 = x2 ++ c :: y2 →
      c ∉ x1 → c ∉ x2 → x1 = x2 ∧ y1 = y2 := by
  intro x1
  induction x1 with
  | nil =>
    intro y1 x2 y2 h h1 h2
    cases x2 with
    | nil => simpa using h
    | cons a t =>
      simp only [List.nil_append, List.cons_append, List.cons.injEq] at h
      exact absurd (h.1 ▸ List.mem_cons_self a t) h2
  | cons a t ih =>
    intro y1 x2 y2 h h1 h2
    cases x2 with
    | nil =>
      simp only [List.nil_append, List.cons_append, List.cons.injEq] at h
      obtain ⟨hac, _⟩ := h
      subst hac
      exact absurd (List.mem_cons_self _ _) h1
    | cons b t2 =>
      simp only [List.cons_append, List.cons.injEq] at h
      obtain ⟨hab, ht⟩ := h
      subst hab
      obtain ⟨e1, e2⟩ := ih y1 t2 y2 ht
        (fun hm => h1 (List.mem_cons_of_mem a hm))
        (fun hm => h2 (List.mem_cons_of_mem a hm))
      exact ⟨by rw [e1], e2⟩

theorem keyOf_inj (p q : Product) (h : keyOf p = keyOf q) :
    p.asin = q.asin ∧ p.domain = q.domain := by
  unfold keyOf at h
  have hrev := congrArg List.reverse h
  rw [List.reverse_append, List.reverse_append] at hrev
  simp only [List.reverse_cons] at hrev
  rw [List.append_assoc, List.append_assoc] at hrev
  simp only [List.singleton_append] at hrev
  obtain ⟨e1, e2⟩ := append_cons_inj '-' _ _ _ _ hrev
    (by intro hm; exact dash_not_in_natDigits p.domain (List.mem_reverse.1 hm))
    (by intro hm; exact dash_not_in_natDigits q.domain (List.mem_reverse.1 hm))
  constructor
  · have := congrArg List.reverse e2
    simpa using this
  · apply natDigits_inj
    have := congrArg List.reverse e1
    simpa using this

-- ── Orchestrator deduplication ──

theorem keyOf_mergeFiles (stored p : Product) :
    keyOf (mergeFiles stored p) = keyOf stored := rfl

theorem hasKey_iff_pair (m : List (Line × Product)) (p : Product)
    (hinv : ∀ kv ∈ m, kv.1 = keyOf kv.2) :
    hasKey m (keyOf p) = true ↔
      (p.asin, p.domain) ∈ m.map (fun kv => (kv.2.asin, kv.2.domain)) := by
  unfold hasKey
  rw [List.any_eq_true]
  constructor
  · rintro ⟨kv, hmem, hbeq⟩
    rw [beq_iff_eq] at hbeq
    have hk := hinv kv hmem
    rw [hk] at hbeq
    obtain ⟨e1, e2⟩ := keyOf_inj kv.2 p hbeq
    exact List.mem_map.2 ⟨kv, hmem, by rw [e1, e2]⟩
  · intro hmem
    obtain ⟨kv, hkv, he⟩ := List.mem_map.1 hmem
    refine ⟨kv, hkv, ?_⟩
    rw [beq_iff_eq, hinv kv hkv]
    obtain ⟨e1, e2⟩ := Prod.ext_iff.1 he
    simp only at e1 e2
    unfold keyOf
    rw [e1, e2]

theorem insertProduct_inv (m : List (Line × Product)) (p : Product)
    (hinv : ∀ kv ∈ m, kv.1 = keyOf kv.2) :
    ∀ kv ∈ insertProduct m p, kv.1 = keyOf kv.2 := by
  intro kv hkv
  unfold insertProduct at hkv
  split at hkv
  · obtain ⟨kv0, hkv0, he⟩ := List.mem_map.1 hkv
    by_cases hb : (kv0.1 == keyOf p) = true
    · rw [if_pos hb] at he
      subst he
      show kv0.1 = keyOf (mergeFiles kv0.2 p)
      rw [keyOf_mergeFiles]
      exact hinv kv0 hkv0
    · rw [if_neg hb] at he
      subst he
      exact hinv kv0 hkv0
  · rcases List.mem_append.1 hkv with h | h
    · exact hinv kv h
    · simp only [List.mem_singleton] at h
      subst h
      rfl

theorem insertProduct_pairs (m : List (Line × Product)) (p : Product)
    (hinv : ∀ kv ∈ m, kv.1 = keyOf kv.2) :
    (insertProduct m p).map (fun kv => (kv.2.asin, kv.2.domain)) =
      if (p.asin, p.domain) ∈ m.map (fun kv => (kv.2.asin, kv.2.domain)) then
        m.map (fun kv => (kv.2.asin, kv.2.domain))
      else m.map (fun kv => (kv.2.asin, kv.2.domain)) ++ [(p.asin, p.domain)] := by
  unfold insertProduct
  by_cases hk : hasKey m (keyOf p) = true
  · rw [if_pos hk, if_pos ((hasKey_iff_pair m p hinv).1 hk)]
    rw [List.map_map]
    apply List.map_congr_left
    intro kv hkv
    by_cases hb : (kv.1 == keyOf p) = true
    · simp only [Function.comp_apply, if_pos hb]
      rfl
    · simp only [Function.comp_apply, if_neg hb]
  · rw [if_neg hk, if_neg (fun hmem => hk ((hasKey_iff_pair m p hinv).2 hmem))]
    rw [List.map_append]
    rfl

theorem foldl_insert_count (a : Line) (d : ℕ) :
    ∀ (ps : List Product) (m : List (Line × Product)),
      (∀ kv ∈ m, kv.1 = keyOf kv.2) →
      ((ps.foldl insertProduct m).map (fun kv => (kv.2.asin, kv.2.domain))).count (a, d) =
        (m.map (fun kv => (kv.2.asin, kv.2.domain))).count (a, d) +
          (if (a, d) ∈ ps.map (fun p => (p.asin, p.domain)) ∧
              (a, d) ∉ m.map (fun kv => (kv.2.asin, kv.2.domain)) then 1 else 0) := by
  intro ps
  induction ps with
  | nil =>
    intro m hinv
    show (m.map (fun kv => (kv.2.asin, kv.2.domain))).count (a, d) = _
    rw [if_neg (fun h => List.not_mem_nil (a, d) (by simpa using h.1))]
    omega
  | cons p ps ih =>
    intro m hinv
    have hinv2 := insertProduct_inv m p hinv
    have hpairs := insertProduct_pairs m p hinv
    show ((ps.foldl insertProduct (insertProduct m p)).map
        (fun kv => (kv.2.asin, kv.2.domain))).count (a, d) = _
    rw [ih (insertProduct m p) hinv2, hpairs]
    by_cases hmem : (p.asin, p.domain) ∈ m.map (fun kv => (kv.2.asin, kv.2.domain))
    · rw [if_pos hmem]
      have hcond : ((a, d) ∈ ps.map (fun p => (p.asin, p.domain)) ∧
          (a, d) ∉ m.map (fun kv => (kv.2.asin, kv.2.domain))) ↔
          ((a, d) ∈ (p :: ps).map (fun p => (p.asin, p.domain)) ∧
          (a, d) ∉ m.map (fun kv => (kv.2.asin, kv.2.domain))) := by
        constructor
        · rintro ⟨h1, h2⟩
          exact ⟨List.mem_cons_of_mem _ h1, h2⟩
        · rintro ⟨h1, h2⟩
          rcases List.mem_cons.1 h1 with h1 | h1
          · exact absurd (h1 ▸ hmem) h2
          · exact ⟨h1, h2⟩
      rw [if_congr hcond rfl rfl]
    · rw [if_neg hmem]
      rw [List.count_append, List.count_singleton]
      by_cases had : (a, d) = (p.asin, p.domain)
      · obtain ⟨ha, hd⟩ := Prod.ext_iff.1 had
        simp only at ha hd
        subst ha
        subst hd
        rw [if_pos (beq_iff_eq.2 rfl)]
        rw [if_neg (fun h => h.2 (List.mem_append_right _ (List.mem_singleton.2 rfl)))]
        rw [if_pos ⟨List.mem_cons_self _ _, hmem⟩]
      · have hbeqn : ¬ (((p.asin, p.domain) == (a, d)) = true) := by
          rw [beq_iff_eq]
          exact fun e => had e.symm
        rw [if_neg hbeqn]
        have hcond : ((a, d) ∈ ps.map (fun p => (p.asin, p.domain)) ∧
            (a, d) ∉ m.map (fun kv => (kv.2.asin, kv.2.domain)) ++
              [(p.asin, p.domain)]) ↔
            ((a, d) ∈ (p :: ps).map (fun p => (p.asin, p.domain)) ∧
            (a, d) ∉ m.map (fun kv => (kv.2.asin, kv.2.domain))) := by
        
          constructor
          · rintro ⟨h1, h2⟩
            exact ⟨List.mem_cons_of_mem _ h1,
              fun hm => h2 (List.mem_append_left _ hm)⟩
          · rintro ⟨h1, h2⟩
            refine ⟨?_, fun hm => ?_⟩
            · rcases List.mem_cons.1 h1 with h1 | h1
              · exact absurd h1 had
              · exact h1
            · rcases List.mem_append.1 hm with hm | hm
              · exact h2 hm
              · exact had (List.mem_singleton.1 hm)
        rw [if_congr hcond rfl rfl]
        omega

/-- C7: in every run, each (identifier, market) pair is fetched at most
once: the orchestrator merges duplicate registry entries by the
asin-dash-domain key before fetching, so the fetch sequence contains each
distinct (asin, domain) pair of the registry exactly once, and contains
nothing else. -/
theorem fetch_once_per_pair (ps : List Product) (a : Line) (d : ℕ) :
    (fetchedPairs ps).count (a, d) =
      if (a, d) ∈ ps.map (fun p => (p.asin, p.domain)) then 1 else 0 := by
  have h := foldl_insert_count a d ps [] (by intro kv hkv; simp at hkv)
  unfold fetchedPairs buildByKey
  rw [h]
  simp

-- ── Keepa price selection ──

/-- C8: the Keepa fetcher selects the price by fixed precedence: the buy-box
entry current[10] when present and positive, otherwise the direct Amazon
entry current[0], otherwise the marketplace entry current[1]; the chosen raw
value is divided by one hundred; when no candidate is present and positive,
or the response has no products or no stats object, it yields no quote. -/
theorem keepa_price_precedence :
    (∀ (resp : KeepaResponse) (q : KeepaProduct) (rest : List KeepaProduct)
        (st : KeepaStats) (x : ℤ),
      resp.products = some (q :: rest) → q.stats = some st →
      curAt st 10 = some x → 0 < x →
      fetchKeepaPrice resp = some ((x : ℚ) / 100)) ∧
    (∀ (resp : KeepaResponse) (q : KeepaProduct) (rest : List KeepaProduct)
        (st : KeepaStats) (x : ℤ),
      resp.products = some (q :: rest) → q.stats = some st →
      goodCand (curAt st 10) = false →
      curAt st 0 = some x → 0 < x →
      fetchKeepaPrice resp = some ((x : ℚ) / 100)) ∧
    (∀ (resp : KeepaResponse) (q : KeepaProduct) (rest : List KeepaProduct)
        (st : KeepaStats) (x : ℤ),
      resp.products = some (q :: rest) → q.stats = some st →
      goodCand (curAt st 10) = false → goodCand (curAt st 0) = false →
      curAt st 1 = some x → 0 < x →
      fetchKeepaPrice resp = some ((x : ℚ) / 100)) ∧
    (∀ (resp : KeepaResponse) (q : KeepaProduct) (rest : List KeepaProduct)
        (st : KeepaStats),
      resp.products = some (q :: rest) → q.stats = some st →
      goodCand (curAt st 10) = false → goodCand (curAt st 0) = false →
      goodCand (curAt st 1) = false →
      fetchKeepaPrice resp = none) ∧
    (∀ resp : KeepaResponse, resp.products = none → fetchKeepaPrice resp = none) ∧
    (∀ resp : KeepaResponse, resp.products = some [] → fetchKeepaPrice resp = none) ∧
    (∀ (resp : KeepaResponse) (q : KeepaProduct) (rest : List KeepaProduct),
      resp.products = some (q :: rest) → q.stats = none →
      fetchKeepaPrice resp = none) := by
  refine ⟨?_, ?_, ?_, ?_, ?_, ?_, ?_⟩
  · intro resp q rest st x hp hst hc hx
    unfold fetchKeepaPrice
    simp only [hp, hst]
    have hg : goodCand (curAt st 10) = true := by
      rw [hc]
      exact decide_eq_true hx
    rw [List.find?_cons_of_pos _ hg, hc]
    show some (Rat.divInt x 100) = some ((x : ℚ) / 100)
    rw [Rat.divInt_eq_div]
    norm_num
  · intro resp q rest st x hp hst h10 hc hx
    unfold fetchKeepaPrice
    simp only [hp, hst]
    have hg : goodCand (curAt st 0) = true := by
      rw [hc]
      exact decide_eq_true hx
    rw [List.find?_cons_of_neg _ (by rw [h10]; exact Bool.false_ne_true),
      List.find?_cons_of_pos _ hg, hc]
    show some (Rat.divInt x 100) = some ((x : ℚ) / 100)
    rw [Rat.divInt_eq_div]
    norm_num
  · intro resp q rest st x hp hst h10 h0 hc hx
    unfold fetchKeepaPrice
    simp only [hp, hst]
    have hg : goodCand (curAt st 1) = true := by
      rw [hc]
      exact decide_eq_true hx
    rw [List.find?_cons_of_neg _ (by rw [h10]; exact Bool.false_ne_true),
      List.find?_cons_of_neg _ (by rw [h0]; exact Bool.false_ne_true),
      List.find?_cons_of_pos _ hg, hc]
    show some (Rat.divInt x 100) = some ((x : ℚ) / 100)
    rw [Rat.divInt_eq_div]
    norm_num
  · intro resp q rest st hp hst h10 h0 h1
    unfold fetchKeepaPrice
    simp only [hp, hst]
    rw [List.find?_cons_of_neg _ (by rw [h10]; exact Bool.false_ne_true),
      List.find?_cons_of_neg _ (by rw [h0]; exact Bool.false_ne_true),
      List.find?_cons_of_neg _ (by rw [h1]; exact Bool.false_ne_true)]
    rfl
  · intro resp hp
    unfold fetchKeepaPrice
    rw [hp]
  · intro resp hp
    unfold fetchKeepaPrice
    rw [hp]
  · intro resp q rest hp hst
    unfold fetchKeepaPrice
    simp only [hp, hst]

/-- C8 witness: the demo response with buy-box entry 4600 yields 46. -/
theorem keepa_price_precedence_witness :
    fetchKeepaPrice demoResp = some ((4600 : ℚ) / 100) :=
  keepa_price_precedence.1 demoResp ⟨some demoStats⟩ [] demoStats 4600
    rfl rfl (by decide) (by decide)

-- ── SigV4 signing pipeline ──

/-- C9: the signing key of the PA-API variant is the four-stage nested keyed
hash over AWS4 plus the secret, the date stamp, the region, the service and
the terminal token, and the request signature is the hex keyed hash, under
that key, of the string to sign assembled from the algorithm tag, the
timestamp, the credential scope, and the hash of the canonical request whose
payload hash is the hash of the body: a deterministic function of its
inputs. -/
theorem sigv4_signature_spec (hmacRaw hmacHex : String → String → String)
    (sha : String → String) (secret region host body amzDate : String) :
    signingKey hmacRaw secret (amzDate.take 8) region PA_SVC =
      hmacRaw (hmacRaw (hmacRaw (hmacRaw ("AWS4" ++ secret) (amzDate.take 8))
        region) PA_SVC) "aws4_request" ∧
    requestSignature hmacRaw hmacHex sha secret region host body amzDate =
      hmacHex
        (hmacRaw (hmacRaw (hmacRaw (hmacRaw ("AWS4" ++ secret) (amzDate.take 8))
          region) PA_SVC) "aws4_request")
        ("AWS4-HMAC-SHA256\n" ++ amzDate ++ "\n" ++
          (amzDate.take 8 ++ "/" ++ region ++ "/" ++ PA_SVC ++ "/aws4_request") ++
          "\n" ++
          sha ("POST\n" ++ PA_PATH ++ "\n\n" ++
            ("content-encoding:amz-1.0\n" ++
             "content-type:application/json; charset=utf-8\n" ++
             "host:" ++ host ++ "\n" ++ "x-amz-date:" ++ amzDate ++ "\n" ++
             "x-amz-target:" ++ PA_TARGET ++ "\n") ++ "\n" ++
            signedHeadersStr ++ "\n" ++ sha body)) :=
  ⟨rfl, rfl⟩

end PriceSync
